import Mathlib

/-!
Verification of the per-language rule evaluation engine of the
secure-code-analyzer repository.  The two source scripts
(python_ast_runner.py and java_ast_runner.py) are shallowly embedded:
every definition below mirrors one function, loop or branch of the source,
with dictionary accesses that can raise KeyError/TypeError modelled in an
Except monad (an `Except.error` value is an uncaught Python exception that
aborts the process with no output).
-/

namespace Analyzer

/-! ### String primitives

Python string operations used by the runners: substring containment
(the `in` operator), `str.startswith`, and case folding for
`re.IGNORECASE`.  Strings are handled as code-point lists, matching
Python's indexing and slicing semantics. -/

/-- Model of list prefix testing, used for startswith and substring search. -/
def isPrefixOfCL : List Char → List Char → Bool
  | [], _ => true
  | _ :: _, [] => false
  | a :: as, b :: bs => a == b && isPrefixOfCL as bs

/-- Model of substring search on code-point lists. -/
def isInfixOfCL (n : List Char) : List Char → Bool
  | [] => n.isEmpty
  | b :: bs => isPrefixOfCL n (b :: bs) || isInfixOfCL n bs

/-- Python `needle in hay` on strings: substring containment. -/
def strIn (needle hay : String) : Bool :=
  isInfixOfCL needle.toList hay.toList

/-- Python `s.startswith(p)`. -/
def pyStartsWith (s p : String) : Bool :=
  isPrefixOfCL p.toList s.toList

/-- Case folding for `re.IGNORECASE` semantics. -/
def lowerChars (l : List Char) : List Char := l.map Char.toLower

/-! ### re.finditer

`re.finditer(pattern, code, re.IGNORECASE)` is embedded as a left-to-right
scan that at each position asks an abstract match primitive for the length
of a match of the compiled pattern at that position; a found match is
non-overlapping (the scan resumes after it, advancing at least one position
past an empty match, as Python does).  The primitive is a parameter
`MatchFn` because the engine never looks inside the regex engine; the
literal-pattern instance `litMatchLen` below is the case-insensitive
matcher for patterns without metacharacters, used for concrete runs. -/

/-- A compiled-pattern matcher: pattern, text, position ↦ length of the
match at that position, if any. -/
def MatchFn : Type := String → String → Nat → Option Nat

/-- Matcher for a literal pattern under `re.IGNORECASE`: the case-folded
pattern must be a prefix of the case-folded text at the given position. -/
def litMatchLen : MatchFn := fun pat text i =>
  if isPrefixOfCL (lowerChars pat.toList) (lowerChars (text.toList.drop i)) then
    some pat.length
  else none

/-- The finditer scan: returns the start offsets of the successive
non-overlapping matches.  Fuel is structural; `finditerStarts` supplies
enough fuel for the whole text. -/
def finditerAux (ml : String → Nat → Option Nat) (text : String) :
    Nat → Nat → List Nat
  | _, 0 => []
  | i, fuel + 1 =>
    if i > text.length then []
    else
      match ml text i with
      | some L => i :: finditerAux ml text (i + max L 1) fuel
      | none => finditerAux ml text (i + 1) fuel

/-- Start offsets of all matches of `re.finditer` over the whole text. -/
def finditerStarts (ml : String → Nat → Option Nat) (text : String) : List Nat :=
  finditerAux ml text 0 (text.length + 2)

/-- `code[:i].count("\n") + 1` — the 1-based line of offset `i`. -/
def lineOf (code : String) (i : Nat) : Nat :=
  (code.toList.take i).count '\n' + 1

/-! ### Rules and the findings dictionary -/

/-- A rule record from the request payload.  `id` and `type` are required
keys of the payload (§6 of the spec: each rule mapping has at least `id`
and `type`); every other field is optional, `None`/absent being modelled
as `none` and `rule.get("sources", [])` / `rule.get("sinks", [])` as
lists defaulting to `[]`. -/
structure Rule where
  id : String
  type : String
  pattern : Option String := none
  calleeName : Option String := none
  objectName : Option String := none
  argIsString : Option Bool := none
  sources : List String := []
  sinks : List String := []
deriving Repr, DecidableEq

/-- The findings dictionary: insertion-ordered association list from rule
id to the list of reported lines.  The reserved `"error"` entry of the
printed JSON is carried separately in `RunOutput`, so every key here is a
rule id. -/
abbrev Findings := List (String × List Nat)

/-- `findings.setdefault(k, []).append(v)`. -/
def setdefaultAppend : Findings → String → Nat → Findings
  | [], k, v => [(k, [v])]
  | (k', vs) :: rest, k, v =>
    if k' = k then (k', vs ++ [v]) :: rest
    else (k', vs) :: setdefaultAppend rest k v

/-- Dictionary lookup, `[]` when the key is absent. -/
def flookup : Findings → String → List Nat
  | [], _ => []
  | (k', vs) :: rest, k => if k' = k then vs else flookup rest k

/-- The runner's mutable globals: `findings` and `tainted_vars`.  The
taint set is a list used only through membership, `add` inserting a name
not yet present. -/
structure VState where
  findings : Findings
  tainted : List String
deriving Repr, DecidableEq

/-- `def mark(rule, node): findings.setdefault(rule["id"], []).append(line)`. -/
def mark (r : Rule) (line : Nat) (st : VState) : VState :=
  { st with findings := setdefaultAppend st.findings r.id line }

/-- `x in tainted_vars` when `x` may be `None` (get_name's result):
`None in set_of_strings` is `False` in Python. -/
def optMem (o : Option String) (tv : List String) : Prop :=
  match o with
  | some n => n ∈ tv
  | none => False

instance (o : Option String) (tv : List String) : Decidable (optMem o tv) := by
  unfold optMem
  cases o with
  | none => exact inferInstanceAs (Decidable False)
  | some n => exact inferInstanceAs (Decidable (n ∈ tv))

/-- `tainted_vars.add(x)`. -/
def taintAdd (tv : List String) (x : String) : List String :=
  if x ∈ tv then tv else tv ++ [x]

/-- `for lhs in lhs_names: tainted_vars.add(lhs)`. -/
def addAll (tv : List String) : List String → List String
  | [] => tv
  | x :: xs => addAll (taintAdd tv x) xs

/-! ### The Python AST fragment

The embedding covers the expression and statement shapes the runner
inspects: names, attribute accesses (ast.Attribute, constructor `attrib`),
calls, string constants, and an opaque constructor `other` carrying the
`ast.unparse` rendering of any other expression (non-string constants,
subscripts, operators, …).  `render` is `ast.unparse` on this fragment;
string constants unparse with single quotes as CPython does. -/

mutual
inductive Expr where
  | name (id : String)
  | attrib (value : Expr) (attr : String)
  | call (func : Expr) (args : ExprList) (lineno : Nat)
  | constStr (value : String)
  | other (rendered : String)
deriving Repr
inductive ExprList where
  | nil
  | cons (head : Expr) (tail : ExprList)
deriving Repr
end

def ExprList.toList : ExprList → List Expr
  | .nil => []
  | .cons e es => e :: es.toList

mutual
/-- `ast.unparse` on the embedded fragment. -/
def render : Expr → String
  | .name i => i
  | .attrib v a => render v ++ "." ++ a
  | .call f args _ => render f ++ "(" ++ String.intercalate ", " (renderList args) ++ ")"
  | .constStr s => "\x27" ++ s ++ "\x27"
  | .other r => r
def renderList : ExprList → List String
  | .nil => []
  | .cons e es => render e :: renderList es
end

/-- `get_name` of python_ast_runner.py.  On an `ast.Attribute` whose value
does not itself resolve, the source computes `None + "." + attr`, which
raises TypeError; that uncaught exception is the `.error` case. -/
def get_name : Expr → Except String (Option String)
  | .name i => .ok (some i)
  | .attrib v a =>
    match get_name v with
    | .ok (some s) => .ok (some (s ++ "." ++ a))
    | .ok none => .error "TypeError: unsupported operand type(s) for +: NoneType and str"
    | .error e => .error e
  | _ => .ok none

/-- `[get_name(t) for t in node.targets ...]`: get_name over the target
list, propagating a raised exception. -/
def getNames : ExprList → Except String (List (Option String))
  | .nil => .ok []
  | .cons t ts =>
    match get_name t with
    | .error e => .error e
    | .ok n =>
      match getNames ts with
      | .error e => .error e
      | .ok ns => .ok (n :: ns)

/-! ### visit_Call: the per-rule loop -/

/-- `if rule.get("calleeName") and func_name == rule["calleeName"]`:
truthy means present and non-empty. -/
def calleeCheck (r : Rule) (funcName : String) (lineno : Nat) (st : VState) :
    VState :=
  match r.calleeName with
  | some c => if c ≠ "" ∧ funcName = c then mark r lineno st else st
  | none => st

/-- `if rule.get("objectName") and func_name.startswith(rule["objectName"])`. -/
def objectCheck (r : Rule) (funcName : String) (lineno : Nat) (st : VState) :
    VState :=
  match r.objectName with
  | some o => if o ≠ "" ∧ pyStartsWith funcName o then mark r lineno st else st
  | none => st

/-- `if rule.get("argIsString") and node.args:` then the first argument
being a string constant marks the line. -/
def argIsStringCheck (r : Rule) (args : ExprList) (lineno : Nat) (st : VState) :
    VState :=
  match r.argIsString with
  | some true =>
    match args with
    | .cons (.constStr _) _ => mark r lineno st
    | _ => st
  | _ => st

/-- The `ast`/`context-ast` branch of visit_Call for one rule: the three
predicate checks run in sequence, each truthy predicate that holds marking
the call's line. -/
def astContextMarks (r : Rule) (funcName : String) (args : ExprList)
    (lineno : Nat) (st : VState) : VState :=
  if r.type = "ast" ∨ r.type = "context-ast" then
    argIsStringCheck r args lineno
      (objectCheck r funcName lineno (calleeCheck r funcName lineno st))
  else st

/-- The per-argument body of the taint-ast sink loop of visit_Call:
`arg_name = get_name(arg)` (may raise), then the tainted-name check and
the source-substring check, each appending a finding when it holds. -/
def argCheck (r : Rule) (lineno : Nat) (st : VState) (arg : Expr) :
    Except String VState :=
  match get_name arg with
  | .error e => .error e
  | .ok argName =>
    let argCode := render arg
    let st :=
      if optMem argName st.tainted then mark r lineno st else st
    let st :=
      if r.sources.any (fun s => strIn s argCode) then mark r lineno st else st
    .ok st

/-- `for arg in node.args: ...` of the taint-ast sink branch. -/
def argsCheck (r : Rule) (lineno : Nat) : ExprList → VState → Except String VState
  | .nil, st => .ok st
  | .cons a as, st =>
    match argCheck r lineno st a with
    | .error e => .error e
    | .ok st => argsCheck r lineno as st

/-- One iteration of visit_Call's `for rule in rules` loop. -/
def callRuleStep (funcName : String) (args : ExprList) (lineno : Nat)
    (st : VState) (r : Rule) : Except String VState :=
  let st := astContextMarks r funcName args lineno st
  if r.type = "taint-ast" ∧ funcName ∈ r.sinks then
    argsCheck r lineno args st
  else .ok st

/-- visit_Call's `for rule in rules` loop. -/
def callRulesLoop (funcName : String) (args : ExprList) (lineno : Nat) :
    List Rule → VState → Except String VState
  | [], st => .ok st
  | r :: rs, st =>
    match callRuleStep funcName args lineno st r with
    | .error e => .error e
    | .ok st => callRulesLoop funcName args lineno rs st

/-- The body of visit_Call before generic_visit:
`func_name = get_name(node.func) or ""`, then the rule loop.  (The
`arg_strs` list the source also computes is never read, so it is not
modelled; its construction cannot raise.) -/
def visit_Call_body (rules : List Rule) (f : Expr) (args : ExprList)
    (lineno : Nat) (st : VState) : Except String VState :=
  match get_name f with
  | .error e => .error e
  | .ok fn => callRulesLoop (fn.getD "") args lineno rules st

/-! ### visit_Assign: the per-rule loop -/

/-- One iteration of visit_Assign's `for rule in rules` loop for the taint
state: the direct-taint substring check, then `rhs_name = get_name(node.value)`
(may raise), then the one-hop alias check. -/
def assignRuleStep (rhsCode : String) (value : Expr) (lhsNames : List String)
    (tv : List String) (r : Rule) : Except String (List String) :=
  if r.type = "taint-ast" then
    let tv :=
      if r.sources.any (fun s => strIn s rhsCode) then addAll tv lhsNames else tv
    match get_name value with
    | .error e => .error e
    | .ok rhsName =>
      let tv := if optMem rhsName tv then addAll tv lhsNames else tv
      .ok tv
  else .ok tv

/-- visit_Assign's `for rule in rules` loop. -/
def assignRulesLoop (rhsCode : String) (value : Expr) (lhsNames : List String) :
    List Rule → List String → Except String (List String)
  | [], tv => .ok tv
  | r :: rs, tv =>
    match assignRuleStep rhsCode value lhsNames tv r with
    | .error e => .error e
    | .ok tv => assignRulesLoop rhsCode value lhsNames rs tv

/-- The body of visit_Assign before generic_visit: render the right-hand
side, resolve the targets (`if get_name(t)` keeps only non-None, non-empty
results; a raising target raises), run the rule loop. -/
def visit_Assign_body (rules : List Rule) (targets : ExprList) (value : Expr)
    (st : VState) : Except String VState :=
  let rhsCode := render value
  match getNames targets with
  | .error e => .error e
  | .ok tnames =>
    let lhsNames := (tnames.filterMap id).filter (fun s => s ≠ "")
    match assignRulesLoop rhsCode value lhsNames rules st.tainted with
    | .error e => .error e
    | .ok tv => .ok { st with tainted := tv }

/-! ### The pre-order traversal (ast.NodeVisitor)

`visit` dispatches to visit_Call on Call nodes, then `generic_visit`
recurses into the children in field order (`func` then `args` for a call,
`value` for an attribute; names and constants are leaves). -/

mutual
def visitExpr (rules : List Rule) : Expr → VState → Except String VState
  | .call f args lineno, st =>
    (match visit_Call_body rules f args lineno st with
    | .error e => .error e
    | .ok st =>
      match visitExpr rules f st with
      | .error e => .error e
      | .ok st => visitExprs rules args st)
  | .attrib v _, st => visitExpr rules v st
  | _, st => .ok st
def visitExprs (rules : List Rule) : ExprList → VState → Except String VState
  | .nil, st => .ok st
  | .cons e es, st =>
    match visitExpr rules e st with
    | .error e' => .error e'
    | .ok st => visitExprs rules es st
end

/-- Module-level statements the runner's claims concern: assignments and
expression statements (straight-line module code). -/
inductive Stmt where
  | assign (targets : ExprList) (value : Expr) (lineno : Nat)
  | exprStmt (value : Expr)
deriving Repr

/-- Visiting one statement: the Assign handler then its generic_visit
(targets in order, then the value); an expression statement just descends
into its expression. -/
def visitStmt (rules : List Rule) : Stmt → VState → Except String VState
  | .assign targets value _, st =>
    (match visit_Assign_body rules targets value st with
    | .error e => .error e
    | .ok st =>
      match visitExprs rules targets st with
      | .error e => .error e
      | .ok st => visitExpr rules value st)
  | .exprStmt e, st => visitExpr rules e st

/-- `visitor.visit(tree)`: pre-order over the module body. -/
def runStmts (rules : List Rule) : List Stmt → VState → Except String VState
  | [], st => .ok st
  | s :: ss, st =>
    match visitStmt rules s st with
    | .error e => .error e
    | .ok st => runStmts rules ss st

/-! ### The regex/heuristic loop and the runners -/

/-- Appending one finding per match offset, at
`code[:m.start()].count("\n") + 1`. -/
def regexMarks (rid : String) (code : String) : List Nat → Findings → Findings
  | [], fs => fs
  | i :: is, fs => regexMarks rid code is (setdefaultAppend fs rid (lineOf code i))

/-- The `for rule in rules` regex/heuristic loop, shared verbatim by both
runners.  `rule["pattern"]` on a rule without the key raises KeyError,
which is uncaught in both scripts. -/
def regexPhase (ml : MatchFn) (code : String) :
    List Rule → Findings → Except String Findings
  | [], fs => .ok fs
  | r :: rs, fs =>
    if r.type = "regex" ∨ r.type = "heuristic" then
      match r.pattern with
      | none => .error "KeyError: pattern"
      | some p =>
        regexPhase ml code rs (regexMarks r.id code (finditerStarts (ml p) code) fs)
    else regexPhase ml code rs fs

/-- Result of `ast.parse(code)`, supplied as an input: the engine never
inspects the parser, only its outcome. -/
inductive PyParse where
  | ok (body : List Stmt)
  | err (msg : String)

/-- What one runner invocation prints: a findings map (with the optional
reserved `error` entry carried separately), or an uncaught exception that
aborts the process with no output at all. -/
inductive RunOutput where
  | map (findings : Findings) (errorKey : Option String)
  | crash (msg : String)
deriving Repr, DecidableEq

/-- python_ast_runner.py end to end: on parse failure print only
`{"error": "Python parse error: …"}` and exit; otherwise run the visitor
over the tree, then the regex/heuristic loop over the raw text, and print
the findings. -/
def pythonRunner (ml : MatchFn) (parse : PyParse) (rules : List Rule)
    (code : String) : RunOutput :=
  match parse with
  | .err msg => .map [] (some ("Python parse error: " ++ msg))
  | .ok body =>
    match runStmts rules body ⟨[], []⟩ with
    | .error e => .crash e
    | .ok st =>
      match regexPhase ml code rules st.findings with
      | .error e => .crash e
      | .ok fs => .map fs none

/-! ### The Java runner -/

/-- The javalang nodes the runner inspects, in `for path, node in tree`
iteration order.  `arguments` and `initializer` carry the `str(...)`
rendering the source applies to them; `position` is `node.position` with
its line. -/
inductive JNode where
  | methodInvocation (member : String) (qualifier : Option String)
      (arguments : List String) (position : Option Nat)
  | variableDeclarator (name : String) (initializer : Option String)
  | otherNode
deriving Repr

/-- The taint-ast sink argument loop of the Java runner: the source-substring
check first, then the `arg_str in tainted_vars` check. -/
def javaArgsCheck (r : Rule) (line : Nat) : List String → VState → VState
  | [], st => st
  | a :: as, st =>
    let st := if r.sources.any (fun s => strIn s a) then mark r line st else st
    let st := if a ∈ st.tainted then mark r line st else st
    javaArgsCheck r line as st

/-- The `ast`/`context-ast` branch of the Java walk for one rule on one
node: on a MethodInvocation, `calleeName` equality on the member and
`objectName` equality on the qualifier each mark the node's line. -/
def javaAstMarks (n : JNode) (r : Rule) (st : VState) : VState :=
  if r.type = "ast" ∨ r.type = "context-ast" then
    match n with
    | .methodInvocation member qualifier _ pos =>
      let st :=
        match r.calleeName with
        | some c => if c ≠ "" ∧ member = c then mark r (pos.getD 0) st else st
        | none => st
      match r.objectName with
      | some o => if o ≠ "" ∧ qualifier = some o then mark r (pos.getD 0) st else st
      | none => st
    | _ => st
  else st

/-- The taint-ast branch of the Java walk for one rule on one node:
a VariableDeclarator whose rendered initializer contains a source taints
the declared name; a MethodInvocation on a sink runs the argument loop. -/
def javaTaintStep (n : JNode) (r : Rule) (st : VState) : VState :=
  if r.type = "taint-ast" then
    match n with
    | .variableDeclarator nm init =>
      if r.sources.any (fun s => strIn s (init.getD "")) then
        { st with tainted := taintAdd st.tainted nm }
      else st
    | .methodInvocation member _ args pos =>
      if member ∈ r.sinks then javaArgsCheck r (pos.getD 0) args st else st
    | .otherNode => st
  else st

/-- One iteration of the Java walk's `for rule in rules` loop on one node. -/
def javaRuleStep (n : JNode) (st : VState) (r : Rule) : VState :=
  javaTaintStep n r (javaAstMarks n r st)

/-- The inner rule loop of the Java walk. -/
def javaRulesLoop (n : JNode) : List Rule → VState → VState
  | [], st => st
  | r :: rs, st => javaRulesLoop n rs (javaRuleStep n st r)

/-- `for path, node in tree: for rule in rules: ...`. -/
def javaWalk (rules : List Rule) : List JNode → VState → VState
  | [], st => st
  | n :: ns, st => javaWalk rules ns (javaRulesLoop n rules st)

/-- java_ast_runner.py end to end: the regex/heuristic loop runs first
(uncaught KeyError on a patternless rule crashes with no output); then,
only if javalang imported, the parse — whose failure is caught and recorded
as the `error` entry, keeping the regex findings — and the tree walk. -/
def javaRunner (ml : MatchFn) (javalangAvailable : Bool)
    (parse : Except String (List JNode)) (rules : List Rule) (code : String) :
    RunOutput :=
  match regexPhase ml code rules [] with
  | .error e => .crash e
  | .ok fs =>
    if javalangAvailable then
      match parse with
      | .error msg => .map fs (some ("Java parse error: " ++ msg))
      | .ok nodes => .map (javaWalk rules nodes ⟨fs, []⟩).findings none
    else .map fs none

/-! ## Invariant infrastructure

`FStep fs fs'` records what one action of either runner can do to the
findings dictionary: existing findings survive (every recorded line stays
recorded under its key) and the no-empty-value-lists invariant is
preserved.  `StepOk` adds taint-set monotonicity. -/

/-- Every value list of the dictionary is non-empty. -/
def allNonEmpty (fs : Findings) : Prop := ∀ kv ∈ fs, kv.2 ≠ []

/-- Findings evolution: lookups only grow and non-emptiness is preserved. -/
def FStep (fs fs' : Findings) : Prop :=
  (∀ k l, l ∈ flookup fs k → l ∈ flookup fs' k) ∧
  (allNonEmpty fs → allNonEmpty fs')

/-- State evolution: findings evolve by `FStep` and the taint set grows. -/
def StepOk (st st' : VState) : Prop :=
  FStep st.findings st'.findings ∧ ∀ x ∈ st.tainted, x ∈ st'.tainted

theorem FStep_refl (fs : Findings) : FStep fs fs := ⟨fun _ _ h => h, fun h => h⟩

theorem FStep_trans {a b c : Findings} (h1 : FStep a b) (h2 : FStep b c) :
    FStep a c :=
  ⟨fun k l h => h2.1 k l (h1.1 k l h), fun h => h2.2 (h1.2 h)⟩

theorem StepOk_refl (st : VState) : StepOk st st :=
  ⟨FStep_refl _, fun _ h => h⟩

theorem StepOk_trans {a b c : VState} (h1 : StepOk a b) (h2 : StepOk b c) :
    StepOk a c :=
  ⟨FStep_trans h1.1 h2.1, fun x hx => h2.2 x (h1.2 x hx)⟩

theorem flookup_setdefaultAppend_self (fs : Findings) (k : String) (v : Nat) :
    flookup (setdefaultAppend fs k v) k = flookup fs k ++ [v] := by
  induction fs with
  | nil => simp [setdefaultAppend, flookup]
  | cons kv rest ih =>
    obtain ⟨k', vs⟩ := kv
    by_cases h : k' = k
    · simp [setdefaultAppend, flookup, h]
    · simp [setdefaultAppend, flookup, h, ih]

theorem flookup_setdefaultAppend_ne (fs : Findings) {k k' : String} (v : Nat)
    (h : k' ≠ k) : flookup (setdefaultAppend fs k v) k' = flookup fs k' := by
  induction fs with
  | nil => simp [setdefaultAppend, flookup, Ne.symm h]
  | cons kv rest ih =>
    obtain ⟨k'', vs⟩ := kv
    by_cases h2 : k'' = k
    · subst h2
      simp [setdefaultAppend, flookup, Ne.symm h]
    · simp [setdefaultAppend, flookup, h2, ih]

theorem allNonEmpty_setdefaultAppend {fs : Findings} (k : String) (v : Nat)
    (h : allNonEmpty fs) : allNonEmpty (setdefaultAppend fs k v) := by
  induction fs with
  | nil =>
    intro kv hkv
    simp [setdefaultAppend] at hkv
    simp [hkv]
  | cons kv0 rest ih =>
    obtain ⟨k', vs⟩ := kv0
    have hrest : allNonEmpty rest := fun kv hkv => h kv (List.mem_cons_of_mem _ hkv)
    by_cases hk : k' = k
    · intro kv hkv
      simp only [setdefaultAppend, if_pos hk] at hkv
      rcases List.mem_cons.mp hkv with h1 | h1
      · subst h1; simp
      · exact h kv (List.mem_cons_of_mem _ h1)
    · intro kv hkv
      simp only [setdefaultAppend, if_neg hk] at hkv
      rcases List.mem_cons.mp hkv with h1 | h1
      · subst h1; exact h (k', vs) (List.mem_cons_self _ _)
      · exact ih hrest kv h1

theorem FStep_setdefaultAppend (fs : Findings) (k : String) (v : Nat) :
    FStep fs (setdefaultAppend fs k v) := by
  refine ⟨fun k' l hl => ?_, fun h => allNonEmpty_setdefaultAppend k v h⟩
  by_cases h : k' = k
  · subst h
    rw [flookup_setdefaultAppend_self]
    exact List.mem_append_left _ hl
  · rw [flookup_setdefaultAppend_ne fs v h]
    exact hl

/-- With no empty value lists, a key has findings exactly when it occurs
in the dictionary. -/
theorem flookup_ne_nil_iff {fs : Findings} (h : allNonEmpty fs) (k : String) :
    flookup fs k ≠ [] ↔ k ∈ fs.map Prod.fst := by
  induction fs with
  | nil => simp [flookup]
  | cons kv rest ih =>
    obtain ⟨k', vs⟩ := kv
    have hrest : allNonEmpty rest := fun kv hkv => h kv (List.mem_cons_of_mem _ hkv)
    by_cases hk : k' = k
    · subst hk
      have : vs ≠ [] := h (k', vs) (List.mem_cons_self _ _)
      simp [flookup, this]
    · simp only [flookup, if_neg hk, List.map_cons, List.mem_cons]
      rw [ih hrest]
      constructor
      · exact fun h => Or.inr h
      · rintro (h | h)
        · exact absurd h.symm hk
        · exact h

/-! ### mark and the taint set -/

theorem StepOk_mark (r : Rule) (line : Nat) (st : VState) :
    StepOk st (mark r line st) :=
  ⟨FStep_setdefaultAppend _ _ _, fun _ h => h⟩

theorem mem_flookup_mark (r : Rule) (line : Nat) (st : VState) :
    line ∈ flookup (mark r line st).findings r.id := by
  show line ∈ flookup (setdefaultAppend st.findings r.id line) r.id
  rw [flookup_setdefaultAppend_self]
  exact List.mem_append_right _ (List.mem_singleton.mpr rfl)

theorem taintAdd_mono {tv : List String} {x : String} (y : String)
    (h : x ∈ tv) : x ∈ taintAdd tv y := by
  unfold taintAdd
  split
  · exact h
  · exact List.mem_append_left _ h

theorem taintAdd_self (tv : List String) (x : String) : x ∈ taintAdd tv x := by
  unfold taintAdd
  split
  · assumption
  · exact List.mem_append_right _ (List.mem_singleton.mpr rfl)

theorem addAll_mono {tv : List String} {x : String} (ys : List String)
    (h : x ∈ tv) : x ∈ addAll tv ys := by
  induction ys generalizing tv with
  | nil => exact h
  | cons y ys ih => exact ih (taintAdd_mono y h)

theorem addAll_mem {ys : List String} {y : String} (tv : List String)
    (h : y ∈ ys) : y ∈ addAll tv ys := by
  induction ys generalizing tv with
  | nil => cases h
  | cons y' ys ih =>
    rcases List.mem_cons.mp h with h1 | h1
    · subst h1
      exact addAll_mono ys (taintAdd_self tv y)
    · exact ih _ h1

/-! ### Step lemmas for the Python visitor -/

theorem StepOk_ite (c : Prop) [Decidable c] (r : Rule) (line : Nat)
    (st : VState) : StepOk st (if c then mark r line st else st) := by
  split
  · exact StepOk_mark r line st
  · exact StepOk_refl st

theorem calleeCheck_step (r : Rule) (fn : String) (l : Nat) (st : VState) :
    StepOk st (calleeCheck r fn l st) := by
  unfold calleeCheck
  cases r.calleeName
  · exact StepOk_refl st
  · exact StepOk_ite _ r l st

theorem objectCheck_step (r : Rule) (fn : String) (l : Nat) (st : VState) :
    StepOk st (objectCheck r fn l st) := by
  unfold objectCheck
  cases r.objectName
  · exact StepOk_refl st
  · exact StepOk_ite _ r l st

theorem argIsStringCheck_step (r : Rule) (args : ExprList) (l : Nat)
    (st : VState) : StepOk st (argIsStringCheck r args l st) := by
  unfold argIsStringCheck
  cases r.argIsString with
  | none => exact StepOk_refl st
  | some b =>
    cases b
    · exact StepOk_refl st
    · cases args with
      | nil => exact StepOk_refl st
      | cons a as =>
        cases a <;> first
          | exact StepOk_refl st
          | exact StepOk_mark r l st

theorem astContextMarks_step (r : Rule) (fn : String) (args : ExprList)
    (l : Nat) (st : VState) : StepOk st (astContextMarks r fn args l st) := by
  unfold astContextMarks
  split
  · exact StepOk_trans (StepOk_trans (calleeCheck_step r fn l st)
      (objectCheck_step r fn l _)) (argIsStringCheck_step r args l _)
  · exact StepOk_refl st

theorem argCheck_step {r : Rule} {l : Nat} {st : VState} {a : Expr}
    {st' : VState} (h : argCheck r l st a = .ok st') : StepOk st st' := by
  unfold argCheck at h
  cases hg : get_name a with
  | error e => rw [hg] at h; cases h
  | ok n =>
    rw [hg] at h
    simp only [Except.ok.injEq] at h
    subst h
    exact StepOk_trans (StepOk_ite _ r l st) (StepOk_ite _ r l _)

theorem argsCheck_step {r : Rule} {l : Nat} :
    ∀ {args : ExprList} {st st' : VState},
      argsCheck r l args st = .ok st' → StepOk st st'
  | .nil, st, _, h => by
    unfold argsCheck at h
    simp only [Except.ok.injEq] at h
    subst h
    exact StepOk_refl st
  | .cons a as, st, st', h => by
    unfold argsCheck at h
    cases h1 : argCheck r l st a with
    | error e => rw [h1] at h; cases h
    | ok st1 =>
      rw [h1] at h
      exact StepOk_trans (argCheck_step h1) (argsCheck_step h)

theorem callRuleStep_step {fn : String} {args : ExprList} {l : Nat}
    {st : VState} {r : Rule} {st' : VState}
    (h : callRuleStep fn args l st r = .ok st') : StepOk st st' := by
  unfold callRuleStep at h
  split at h
  · exact StepOk_trans (astContextMarks_step r fn args l st) (argsCheck_step h)
  · simp only [Except.ok.injEq] at h
    subst h
    exact astContextMarks_step r fn args l st

theorem callRulesLoop_step {fn : String} {args : ExprList} {l : Nat}
    {rules : List Rule} {st st' : VState}
    (h : callRulesLoop fn args l rules st = .ok st') : StepOk st st' := by
  induction rules generalizing st with
  | nil =>
    unfold callRulesLoop at h
    simp only [Except.ok.injEq] at h
    subst h
    exact StepOk_refl st
  | cons r rs ih =>
    unfold callRulesLoop at h
    cases h1 : callRuleStep fn args l st r with
    | error e => rw [h1] at h; cases h
    | ok st1 =>
      rw [h1] at h
      exact StepOk_trans (callRuleStep_step h1) (ih h)

theorem visit_Call_body_step {rules : List Rule} {f : Expr} {args : ExprList}
    {l : Nat} {st st' : VState}
    (h : visit_Call_body rules f args l st = .ok st') : StepOk st st' := by
  unfold visit_Call_body at h
  cases hg : get_name f with
  | error e => rw [hg] at h; cases h
  | ok fn =>
    rw [hg] at h
    exact callRulesLoop_step h

theorem assignRuleStep_tainted {rhsCode : String} {value : Expr}
    {lhsNames : List String} {tv tv' : List String} {r : Rule}
    (h : assignRuleStep rhsCode value lhsNames tv r = .ok tv') :
    ∀ x ∈ tv, x ∈ tv' := by
  unfold assignRuleStep at h
  split at h
  · cases hg : get_name value with
    | error e => rw [hg] at h; cases h
    | ok n =>
      rw [hg] at h
      simp only [Except.ok.injEq] at h
      subst h
      intro x hx
      split
      · split
        · exact addAll_mono _ (addAll_mono _ hx)
        · exact addAll_mono _ hx
      · split
        · exact addAll_mono _ hx
        · exact hx
  · simp only [Except.ok.injEq] at h
    subst h
    exact fun x hx => hx

theorem assignRulesLoop_tainted {rhsCode : String} {value : Expr}
    {lhsNames : List String} {rules : List Rule} {tv tv' : List String}
    (h : assignRulesLoop rhsCode value lhsNames rules tv = .ok tv') :
    ∀ x ∈ tv, x ∈ tv' := by
  induction rules generalizing tv with
  | nil =>
    unfold assignRulesLoop at h
    simp only [Except.ok.injEq] at h
    subst h
    exact fun x hx => hx
  | cons r rs ih =>
    unfold assignRulesLoop at h
    cases h1 : assignRuleStep rhsCode value lhsNames tv r with
    | error e => rw [h1] at h; cases h
    | ok tv1 =>
      rw [h1] at h
      exact fun x hx => ih h x (assignRuleStep_tainted h1 x hx)

/-- visit_Assign never records a finding: only the taint set changes. -/
theorem visit_Assign_body_findings {rules : List Rule} {targets : ExprList}
    {value : Expr} {st st' : VState}
    (h : visit_Assign_body rules targets value st = .ok st') :
    st'.findings = st.findings := by
  unfold visit_Assign_body at h
  cases hg : getNames targets with
  | error e => rw [hg] at h; cases h
  | ok tnames =>
    rw [hg] at h
    dsimp only at h
    cases h1 : assignRulesLoop (render value) value
        ((tnames.filterMap id).filter (fun s => s ≠ "")) rules st.tainted with
    | error e => rw [h1] at h; cases h
    | ok tv =>
      rw [h1] at h
      simp only [Except.ok.injEq] at h
      subst h
      rfl

theorem visit_Assign_body_step {rules : List Rule} {targets : ExprList}
    {value : Expr} {st st' : VState}
    (h : visit_Assign_body rules targets value st = .ok st') : StepOk st st' := by
  unfold visit_Assign_body at h
  cases hg : getNames targets with
  | error e => rw [hg] at h; cases h
  | ok tnames =>
    rw [hg] at h
    dsimp only at h
    cases h1 : assignRulesLoop (render value) value
        ((tnames.filterMap id).filter (fun s => s ≠ "")) rules st.tainted with
    | error e => rw [h1] at h; cases h
    | ok tv =>
      rw [h1] at h
      simp only [Except.ok.injEq] at h
      subst h
      exact ⟨FStep_refl _, assignRulesLoop_tainted h1⟩

mutual
theorem visitExpr_step {rules : List Rule} :
    ∀ {e : Expr} {st st' : VState}, visitExpr rules e st = .ok st' → StepOk st st'
  | .call f args lineno, st, st', h => by
    unfold visitExpr at h
    cases h1 : visit_Call_body rules f args lineno st with
    | error e => rw [h1] at h; cases h
    | ok st1 =>
      rw [h1] at h
      dsimp only at h
      cases h2 : visitExpr rules f st1 with
      | error e => rw [h2] at h; cases h
      | ok st2 =>
        rw [h2] at h
        exact StepOk_trans (StepOk_trans (visit_Call_body_step h1) (visitExpr_step h2))
          (visitExprs_step h)
  | .attrib v a, st, st', h => by
    unfold visitExpr at h
    exact visitExpr_step h
  | .name _, st, st', h => by
    unfold visitExpr at h
    simp only [Except.ok.injEq] at h
    subst h
    exact StepOk_refl st
  | .constStr _, st, st', h => by
    unfold visitExpr at h
    simp only [Except.ok.injEq] at h
    subst h
    exact StepOk_refl st
  | .other _, st, st', h => by
    unfold visitExpr at h
    simp only [Except.ok.injEq] at h
    subst h
    exact StepOk_refl st

theorem visitExprs_step {rules : List Rule} :
    ∀ {es : ExprList} {st st' : VState}, visitExprs rules es st = .ok st' → StepOk st st'
  | .nil, st, _, h => by
    unfold visitExprs at h
    simp only [Except.ok.injEq] at h
    subst h
    exact StepOk_refl st
  | .cons e es, st, st', h => by
    unfold visitExprs at h
    cases h1 : visitExpr rules e st with
    | error e' => rw [h1] at h; cases h
    | ok st1 =>
      rw [h1] at h
      exact StepOk_trans (visitExpr_step h1) (visitExprs_step h)
end

theorem visitStmt_step {rules : List Rule} {s : Stmt} {st st' : VState}
    (h : visitStmt rules s st = .ok st') : StepOk st st' := by
  cases s with
  | assign targets value l =>
    unfold visitStmt at h
    dsimp only at h
    cases h1 : visit_Assign_body rules targets value st with
    | error e => rw [h1] at h; cases h
    | ok st1 =>
      rw [h1] at h
      dsimp only at h
      cases h2 : visitExprs rules targets st1 with
      | error e => rw [h2] at h; cases h
      | ok st2 =>
        rw [h2] at h
        exact StepOk_trans (StepOk_trans (visit_Assign_body_step h1) (visitExprs_step h2))
          (visitExpr_step h)
  | exprStmt e =>
    unfold visitStmt at h
    exact visitExpr_step h

theorem runStmts_step {rules : List Rule} {body : List Stmt} {st st' : VState}
    (h : runStmts rules body st = .ok st') : StepOk st st' := by
  induction body generalizing st with
  | nil =>
    unfold runStmts at h
    simp only [Except.ok.injEq] at h
    subst h
    exact StepOk_refl st
  | cons s ss ih =>
    unfold runStmts at h
    cases h1 : visitStmt rules s st with
    | error e => rw [h1] at h; cases h
    | ok st1 =>
      rw [h1] at h
      exact StepOk_trans (visitStmt_step h1) (ih h)

/-- Decomposing the statement walk across list concatenation. -/
theorem runStmts_append {rules : List Rule} {l1 l2 : List Stmt} {st st' : VState}
    (h : runStmts rules (l1 ++ l2) st = .ok st') :
    ∃ st1, runStmts rules l1 st = .ok st1 ∧ runStmts rules l2 st1 = .ok st' := by
  induction l1 generalizing st with
  | nil =>
    refine ⟨st, ?_, h⟩
    unfold runStmts
    rfl
  | cons s ss ih =>
    rw [List.cons_append] at h
    unfold runStmts at h
    cases h1 : visitStmt rules s st with
    | error e => rw [h1] at h; cases h
    | ok st1 =>
      rw [h1] at h
      dsimp only at h
      obtain ⟨stm, hm1, hm2⟩ := ih h
      refine ⟨stm, ?_, hm2⟩
      unfold runStmts
      rw [h1]
      exact hm1

/-! ### Step lemmas for the regex/heuristic loop -/

theorem regexMarks_fstep (rid : String) (code : String) :
    ∀ (is : List Nat) (fs : Findings), FStep fs (regexMarks rid code is fs)
  | [], fs => FStep_refl fs
  | i :: is, fs =>
    FStep_trans (FStep_setdefaultAppend fs rid (lineOf code i))
      (regexMarks_fstep rid code is _)

theorem regexPhase_fstep {ml : MatchFn} {code : String} {rules : List Rule}
    {fs fs' : Findings} (h : regexPhase ml code rules fs = .ok fs') :
    FStep fs fs' := by
  induction rules generalizing fs with
  | nil =>
    unfold regexPhase at h
    simp only [Except.ok.injEq] at h
    subst h
    exact FStep_refl fs
  | cons r rs ih =>
    unfold regexPhase at h
    split at h
    · cases hp : r.pattern with
      | none => rw [hp] at h; cases h
      | some p =>
        rw [hp] at h
        exact FStep_trans (regexMarks_fstep r.id code _ fs) (ih h)
    · exact ih h

/-! ### Step lemmas for the Java walk -/

theorem javaArgsCheck_step (r : Rule) (l : Nat) :
    ∀ (as : List String) (st : VState), StepOk st (javaArgsCheck r l as st)
  | [], st => StepOk_refl st
  | a :: as, st => by
    unfold javaArgsCheck
    exact StepOk_trans (StepOk_trans (StepOk_ite _ r l st) (StepOk_ite _ r l _))
      (javaArgsCheck_step r l as _)

theorem javaAstMarks_step (n : JNode) (r : Rule) (st : VState) :
    StepOk st (javaAstMarks n r st) := by
  unfold javaAstMarks
  split
  · cases n with
    | methodInvocation member qualifier args pos =>
      have h1 : ∀ st0 : VState, StepOk st0
          (match r.objectName with
           | some o => if o ≠ "" ∧ qualifier = some o then
               mark r (pos.getD 0) st0 else st0
           | none => st0) := by
        intro st0
        cases r.objectName
        · exact StepOk_refl st0
        · exact StepOk_ite _ r _ st0
      cases r.calleeName with
      | none => exact h1 st
      | some c => exact StepOk_trans (StepOk_ite _ r _ st) (h1 _)
    | variableDeclarator nm init => exact StepOk_refl st
    | otherNode => exact StepOk_refl st
  · exact StepOk_refl st

theorem javaTaintStep_step (n : JNode) (r : Rule) (st : VState) :
    StepOk st (javaTaintStep n r st) := by
  unfold javaTaintStep
  split
  · cases n with
    | variableDeclarator nm init =>
      dsimp only
      split
      · exact ⟨FStep_refl _, fun x hx => taintAdd_mono nm hx⟩
      · exact StepOk_refl st
    | methodInvocation member q args pos =>
      dsimp only
      split
      · exact javaArgsCheck_step r _ args st
      · exact StepOk_refl st
    | otherNode => exact StepOk_refl st
  · exact StepOk_refl st

theorem javaRuleStep_step (n : JNode) (st : VState) (r : Rule) :
    StepOk st (javaRuleStep n st r) :=
  StepOk_trans (javaAstMarks_step n r st) (javaTaintStep_step n r _)

theorem javaRulesLoop_step (n : JNode) :
    ∀ (rules : List Rule) (st : VState), StepOk st (javaRulesLoop n rules st)
  | [], st => StepOk_refl st
  | r :: rs, st =>
    StepOk_trans (javaRuleStep_step n st r) (javaRulesLoop_step n rs _)

theorem javaWalk_step (rules : List Rule) :
    ∀ (ns : List JNode) (st : VState), StepOk st (javaWalk rules ns st)
  | [], st => StepOk_refl st
  | n :: ns, st =>
    StepOk_trans (javaRulesLoop_step n rules st) (javaWalk_step rules ns _)

theorem javaWalk_append (rules : List Rule) :
    ∀ (l1 l2 : List JNode) (st : VState),
      javaWalk rules (l1 ++ l2) st = javaWalk rules l2 (javaWalk rules l1 st)
  | [], l2, st => rfl
  | n :: ns, l2, st => by
    rw [List.cons_append]
    exact javaWalk_append rules ns l2 _

/-! ### Progress lemmas: sink calls record findings -/

/-- An expression that resolves to a simple dotted name contains no call,
so visiting it changes nothing. -/
theorem visitExpr_resolved_id {rules : List Rule} :
    ∀ {e : Expr} {s : String} (st : VState), get_name e = .ok (some s) →
      visitExpr rules e st = .ok st
  | .name _, _, st, _ => rfl
  | .attrib v a, s, st, h => by
    unfold get_name at h
    cases hv : get_name v with
    | error e => rw [hv] at h; cases h
    | ok n =>
      rw [hv] at h
      cases n with
      | none => cases h
      | some s' =>
        unfold visitExpr
        exact visitExpr_resolved_id st hv
  | .call f args l, s, st, h => by
    unfold get_name at h
    simp at h
  | .constStr _, _, st, h => by
    unfold get_name at h
    simp at h
  | .other _, _, st, h => by
    unfold get_name at h
    simp at h

/-- The condition under which the sink-argument loop must fire: some
argument is a bare tainted name, or some argument's rendering contains a
declared source. -/
def SinkArgHit (r : Rule) (args : ExprList) (tv : List String) : Prop :=
  (∃ a, Expr.name a ∈ args.toList ∧ a ∈ tv) ∨
  (∃ arg, arg ∈ args.toList ∧ ∃ src, src ∈ r.sources ∧ strIn src (render arg) = true)

theorem SinkArgHit_mono {r : Rule} {args : ExprList} {tv tv' : List String}
    (hsub : ∀ x ∈ tv, x ∈ tv') (h : SinkArgHit r args tv) :
    SinkArgHit r args tv' := by
  rcases h with ⟨a, h1, h2⟩ | h
  · exact Or.inl ⟨a, h1, hsub a h2⟩
  · exact Or.inr h

/-- The tainted-name check of the argument loop records the call's line. -/
theorem argCheck_taint_marks {r : Rule} {l : Nat} {st st' : VState} {a : String}
    (ha : a ∈ st.tainted) (h : argCheck r l st (.name a) = .ok st') :
    l ∈ flookup st'.findings r.id := by
  unfold argCheck at h
  dsimp only [get_name] at h
  simp only [Except.ok.injEq] at h
  subst h
  have h1 : (if optMem (some a) st.tainted then mark r l st else st) = mark r l st :=
    if_pos ha
  have hX : l ∈ flookup (if optMem (some a) st.tainted then
      mark r l st else st).findings r.id := by
    rw [h1]
    exact mem_flookup_mark r l st
  split
  · exact (StepOk_mark r l _).1.1 _ _ hX
  · exact hX

/-- The source-substring check of the argument loop records the call's
line. -/
theorem argCheck_source_marks {r : Rule} {l : Nat} {st st' : VState}
    {arg : Expr} {src : String} (hsrc : src ∈ r.sources)
    (hin : strIn src (render arg) = true)
    (h : argCheck r l st arg = .ok st') :
    l ∈ flookup st'.findings r.id := by
  unfold argCheck at h
  cases hg : get_name arg with
  | error e => rw [hg] at h; cases h
  | ok n =>
    rw [hg] at h
    simp only [Except.ok.injEq] at h
    subst h
    have hC : (r.sources.any fun s => strIn s (render arg)) = true :=
      List.any_eq_true.mpr ⟨src, hsrc, hin⟩
    rw [if_pos hC]
    exact mem_flookup_mark r l _

/-- If some argument hits, the whole argument loop records the line. -/
theorem argsCheck_hit {r : Rule} {l : Nat} :
    ∀ {args : ExprList} {st st' : VState}, SinkArgHit r args st.tainted →
      argsCheck r l args st = .ok st' → l ∈ flookup st'.findings r.id
  | .nil, st, st', hhit, h => by
    rcases hhit with ⟨a, h1, _⟩ | ⟨arg, h1, _⟩ <;> cases h1
  | .cons b bs, st, st', hhit, h => by
    unfold argsCheck at h
    cases h1 : argCheck r l st b with
    | error e => rw [h1] at h; cases h
    | ok st1 =>
      rw [h1] at h
      rcases hhit with ⟨a, hmem, ha⟩ | ⟨arg, hmem, src, hsrc, hin⟩
      · rcases List.mem_cons.mp hmem with hb | hb
        · subst hb
          have := argCheck_taint_marks ha h1
          exact (argsCheck_step h).1.1 _ _ this
        · exact argsCheck_hit
            (Or.inl ⟨a, hb, (argCheck_step h1).2 a ha⟩) h
      · rcases List.mem_cons.mp hmem with hb | hb
        · subst hb
          have := argCheck_source_marks hsrc hin h1
          exact (argsCheck_step h).1.1 _ _ this
        · exact argsCheck_hit (Or.inr ⟨arg, hb, src, hsrc, hin⟩) h

/-- One rule step of visit_Call records the line for a taint-ast rule on a
sink with a hitting argument. -/
theorem callRuleStep_marks {fn : String} {args : ExprList} {l : Nat}
    {st st' : VState} {r : Rule} (hty : r.type = "taint-ast")
    (hsink : fn ∈ r.sinks) (hhit : SinkArgHit r args st.tainted)
    (h : callRuleStep fn args l st r = .ok st') :
    l ∈ flookup st'.findings r.id := by
  unfold callRuleStep at h
  rw [if_pos ⟨hty, hsink⟩] at h
  exact argsCheck_hit
    (SinkArgHit_mono (astContextMarks_step r fn args l st).2 hhit) h

theorem callRulesLoop_marks {fn : String} {args : ExprList} {l : Nat}
    {r : Rule} (hty : r.type = "taint-ast") (hsink : fn ∈ r.sinks) :
    ∀ {rules : List Rule} {st st' : VState}, r ∈ rules →
      SinkArgHit r args st.tainted →
      callRulesLoop fn args l rules st = .ok st' →
      l ∈ flookup st'.findings r.id := by
  intro rules
  induction rules with
  | nil => intro st st' hmem; cases hmem
  | cons r' rs ih =>
    intro st st' hmem hhit h
    unfold callRulesLoop at h
    cases h1 : callRuleStep fn args l st r' with
    | error e => rw [h1] at h; cases h
    | ok st1 =>
      rw [h1] at h
      rcases List.mem_cons.mp hmem with he | he
      · subst he
        exact (callRulesLoop_step h).1.1 _ _ (callRuleStep_marks hty hsink hhit h1)
      · exact ih he (SinkArgHit_mono (callRuleStep_step h1).2 hhit) h

/-- visit_Call on a resolved sink name with a hitting argument records the
call's line. -/
theorem visit_Call_body_marks {rules : List Rule} {f : Expr} {args : ExprList}
    {l : Nat} {st st' : VState} {r : Rule} {fn : String}
    (hf : get_name f = .ok (some fn)) (hmem : r ∈ rules)
    (hty : r.type = "taint-ast") (hsink : fn ∈ r.sinks)
    (hhit : SinkArgHit r args st.tainted)
    (h : visit_Call_body rules f args l st = .ok st') :
    l ∈ flookup st'.findings r.id := by
  unfold visit_Call_body at h
  rw [hf] at h
  dsimp only [Option.getD] at h
  exact callRulesLoop_marks hty hsink hmem hhit h

/-- Visiting a sink-call statement records the call's line. -/
theorem sinkStmt_marks {rules : List Rule} {f : Expr} {args : ExprList}
    {l : Nat} {st st' : VState} {r : Rule} {fn : String}
    (hf : get_name f = .ok (some fn)) (hmem : r ∈ rules)
    (hty : r.type = "taint-ast") (hsink : fn ∈ r.sinks)
    (hhit : SinkArgHit r args st.tainted)
    (h : visitStmt rules (.exprStmt (.call f args l)) st = .ok st') :
    l ∈ flookup st'.findings r.id := by
  unfold visitStmt at h
  unfold visitExpr at h
  cases h1 : visit_Call_body rules f args l st with
  | error e => rw [h1] at h; cases h
  | ok st1 =>
    rw [h1] at h
    dsimp only at h
    cases h2 : visitExpr rules f st1 with
    | error e => rw [h2] at h; cases h
    | ok st2 =>
      rw [h2] at h
      exact (visitExprs_step h).1.1 _ _
        ((visitExpr_step h2).1.1 _ _
          (visit_Call_body_marks hf hmem hty hsink hhit h1))

/-! ### Progress lemmas: assignments taint their targets -/

theorem getNames_mem {a : String} :
    ∀ {ts : ExprList} {ns : List (Option String)}, getNames ts = .ok ns →
      Expr.name a ∈ ts.toList → some a ∈ ns
  | .nil, ns, h, hmem => by cases hmem
  | .cons t ts, ns, h, hmem => by
    unfold getNames at h
    cases hg : get_name t with
    | error e => rw [hg] at h; cases h
    | ok n =>
      rw [hg] at h
      cases hrest : getNames ts with
      | error e => rw [hrest] at h; cases h
      | ok ns' =>
        rw [hrest] at h
        simp only [Except.ok.injEq] at h
        subst h
        rcases List.mem_cons.mp hmem with ht | ht
        · subst ht
          unfold get_name at hg
          simp only [Except.ok.injEq] at hg
          subst hg
          exact List.mem_cons_self _ _
        · exact List.mem_cons_of_mem _ (getNames_mem hrest ht)

/-- The direct-taint check of one assignment rule step adds the target. -/
theorem assignRuleStep_taints {rhsCode : String} {value : Expr}
    {lhsNames : List String} {tv tv' : List String} {r : Rule} {a : String}
    (hty : r.type = "taint-ast") {src : String} (hsrc : src ∈ r.sources)
    (hin : strIn src rhsCode = true) (ha : a ∈ lhsNames)
    (h : assignRuleStep rhsCode value lhsNames tv r = .ok tv') : a ∈ tv' := by
  unfold assignRuleStep at h
  rw [if_pos hty] at h
  have hC : (r.sources.any fun s => strIn s rhsCode) = true :=
    List.any_eq_true.mpr ⟨src, hsrc, hin⟩
  rw [if_pos hC] at h
  cases hg : get_name value with
  | error e => rw [hg] at h; cases h
  | ok n =>
    rw [hg] at h
    simp only [Except.ok.injEq] at h
    subst h
    split
    · exact addAll_mono _ (addAll_mem tv ha)
    · exact addAll_mem tv ha

theorem assignRulesLoop_taints {rhsCode : String} {value : Expr}
    {lhsNames : List String} {r : Rule} {a : String}
    (hty : r.type = "taint-ast") {src : String} (hsrc : src ∈ r.sources)
    (hin : strIn src rhsCode = true) (ha : a ∈ lhsNames) :
    ∀ {rules : List Rule} {tv tv' : List String}, r ∈ rules →
      assignRulesLoop rhsCode value lhsNames rules tv = .ok tv' → a ∈ tv' := by
  intro rules
  induction rules with
  | nil => intro tv tv' hmem; cases hmem
  | cons r' rs ih =>
    intro tv tv' hmem h
    unfold assignRulesLoop at h
    cases h1 : assignRuleStep rhsCode value lhsNames tv r' with
    | error e => rw [h1] at h; cases h
    | ok tv1 =>
      rw [h1] at h
      rcases List.mem_cons.mp hmem with he | he
      · subst he
        exact assignRulesLoop_tainted h a
          (assignRuleStep_taints hty hsrc hin ha h1)
      · exact ih he h

/-- visit_Assign on `a = SOURCE_EXPR` puts `a` into the taint set. -/
theorem visit_Assign_body_taints {rules : List Rule} {targets : ExprList}
    {value : Expr} {st st' : VState} {r : Rule} {a src : String}
    (hmem : r ∈ rules) (hty : r.type = "taint-ast") (hsrc : src ∈ r.sources)
    (hin : strIn src (render value) = true) (ha : a ≠ "")
    (htarget : Expr.name a ∈ targets.toList)
    (h : visit_Assign_body rules targets value st = .ok st') :
    a ∈ st'.tainted := by
  unfold visit_Assign_body at h
  cases hg : getNames targets with
  | error e => rw [hg] at h; cases h
  | ok tnames =>
    rw [hg] at h
    dsimp only at h
    cases h1 : assignRulesLoop (render value) value
        ((tnames.filterMap id).filter (fun s => s ≠ "")) rules st.tainted with
    | error e => rw [h1] at h; cases h
    | ok tv =>
      rw [h1] at h
      simp only [Except.ok.injEq] at h
      subst h
      have hlhs : a ∈ (tnames.filterMap id).filter (fun s => s ≠ "") := by
        refine List.mem_filter.mpr ⟨?_, by simp [ha]⟩
        exact List.mem_filterMap.mpr ⟨some a, getNames_mem hg htarget, rfl⟩
      exact assignRulesLoop_taints hty hsrc hin hlhs hmem h1

/-- Visiting the statement `a = SOURCE_EXPR` puts `a` into the taint set. -/
theorem assignStmt_taints {rules : List Rule} {targets : ExprList}
    {value : Expr} {l : Nat} {st st' : VState} {r : Rule} {a src : String}
    (hmem : r ∈ rules) (hty : r.type = "taint-ast") (hsrc : src ∈ r.sources)
    (hin : strIn src (render value) = true) (ha : a ≠ "")
    (htarget : Expr.name a ∈ targets.toList)
    (h : visitStmt rules (.assign targets value l) st = .ok st') :
    a ∈ st'.tainted := by
  unfold visitStmt at h
  dsimp only at h
  cases h1 : visit_Assign_body rules targets value st with
  | error e => rw [h1] at h; cases h
  | ok st1 =>
    rw [h1] at h
    dsimp only at h
    cases h2 : visitExprs rules targets st1 with
    | error e => rw [h2] at h; cases h
    | ok st2 =>
      rw [h2] at h
      exact (visitExpr_step h).2 a ((visitExprs_step h2).2 a
        (visit_Assign_body_taints hmem hty hsrc hin ha htarget h1))

/-! ### Runner inversions and regex membership -/

theorem pythonRunner_map_inv {ml : MatchFn} {body : List Stmt}
    {rules : List Rule} {code : String} {fs : Findings} {err : Option String}
    (h : pythonRunner ml (.ok body) rules code = .map fs err) :
    ∃ st, runStmts rules body ⟨[], []⟩ = .ok st ∧
      regexPhase ml code rules st.findings = .ok fs ∧ err = none := by
  unfold pythonRunner at h
  dsimp only at h
  cases h1 : runStmts rules body ⟨[], []⟩ with
  | error e => rw [h1] at h; cases h
  | ok st =>
    rw [h1] at h
    dsimp only at h
    cases h2 : regexPhase ml code rules st.findings with
    | error e => rw [h2] at h; cases h
    | ok fs' =>
      rw [h2] at h
      simp only [RunOutput.map.injEq] at h
      exact ⟨st, rfl, by rw [h.1] at h2; exact h2, h.2.symm⟩

theorem javaRunner_map_inv {ml : MatchFn} {nodes : List JNode}
    {rules : List Rule} {code : String} {fs : Findings} {err : Option String}
    (h : javaRunner ml true (.ok nodes) rules code = .map fs err) :
    ∃ fs0, regexPhase ml code rules [] = .ok fs0 ∧
      fs = (javaWalk rules nodes ⟨fs0, []⟩).findings ∧ err = none := by
  unfold javaRunner at h
  cases h1 : regexPhase ml code rules [] with
  | error e => rw [h1] at h; cases h
  | ok fs0 =>
    rw [h1] at h
    dsimp only at h
    rw [if_pos rfl] at h
    simp only [RunOutput.map.injEq] at h
    exact ⟨fs0, rfl, h.1.symm, h.2.symm⟩

theorem regexMarks_mem (rid : String) (code : String) :
    ∀ {is : List Nat} {i : Nat} (fs : Findings), i ∈ is →
      lineOf code i ∈ flookup (regexMarks rid code is fs) rid
  | [], _, fs, h => by cases h
  | j :: is, i, fs, h => by
    rcases List.mem_cons.mp h with he | he
    · subst he
      unfold regexMarks
      refine (regexMarks_fstep rid code is _).1 _ _ ?_
      rw [flookup_setdefaultAppend_self]
      exact List.mem_append_right _ (List.mem_singleton.mpr rfl)
    · unfold regexMarks
      exact regexMarks_mem rid code _ he

theorem regexPhase_marks {ml : MatchFn} {code : String} {r : Rule} {p : String}
    (hty : r.type = "regex" ∨ r.type = "heuristic") (hp : r.pattern = some p) :
    ∀ {rules : List Rule} {fs fs' : Findings}, r ∈ rules →
      regexPhase ml code rules fs = .ok fs' →
      ∀ i ∈ finditerStarts (ml p) code, lineOf code i ∈ flookup fs' r.id := by
  intro rules
  induction rules with
  | nil => intro fs fs' hmem; cases hmem
  | cons r' rs ih =>
    intro fs fs' hmem h i hi
    unfold regexPhase at h
    rcases List.mem_cons.mp hmem with he | he
    · subst he
      rw [if_pos hty, hp] at h
      exact (regexPhase_fstep h).1 _ _ (regexMarks_mem r.id code fs hi)
    · split at h
      · cases hp' : r'.pattern with
        | none => rw [hp'] at h; cases h
        | some p' =>
          rw [hp'] at h
          exact ih he h i hi
      · exact ih he h i hi

/-! ### Progress lemmas for the Java walk -/

/-- The Java sink-argument loop fires when some rendered argument is in
the taint set, or some rendered argument contains a declared source. -/
def JSinkHit (r : Rule) (args : List String) (tv : List String) : Prop :=
  (∃ a, a ∈ args ∧ a ∈ tv) ∨
  (∃ arg, arg ∈ args ∧ ∃ src, src ∈ r.sources ∧ strIn src arg = true)

theorem JSinkHit_mono {r : Rule} {args : List String} {tv tv' : List String}
    (hsub : ∀ x ∈ tv, x ∈ tv') (h : JSinkHit r args tv) : JSinkHit r args tv' := by
  rcases h with ⟨a, h1, h2⟩ | h
  · exact Or.inl ⟨a, h1, hsub a h2⟩
  · exact Or.inr h

theorem javaArgsCheck_hit {r : Rule} {l : Nat} :
    ∀ {args : List String} {st : VState}, JSinkHit r args st.tainted →
      l ∈ flookup (javaArgsCheck r l args st).findings r.id
  | [], st, hhit => by
    rcases hhit with ⟨a, h1, _⟩ | ⟨arg, h1, _⟩ <;> cases h1
  | b :: bs, st, hhit => by
    unfold javaArgsCheck
    dsimp only
    rcases hhit with ⟨a, hmem, ha⟩ | ⟨arg, hmem, src, hsrc, hin⟩
    · rcases List.mem_cons.mp hmem with he | he
      · subst he
        have h1 : a ∈ (if (r.sources.any fun s => strIn s a) = true then
            mark r l st else st).tainted := (StepOk_ite _ r l st).2 a ha
        rw [if_pos h1]
        exact (javaArgsCheck_step r l bs _).1.1 _ _ (mem_flookup_mark r l _)
      · refine javaArgsCheck_hit (Or.inl ⟨a, he, ?_⟩)
        exact (StepOk_ite _ r l _).2 a ((StepOk_ite _ r l st).2 a ha)
    · rcases List.mem_cons.mp hmem with he | he
      · subst he
        have hC : (r.sources.any fun s => strIn s arg) = true :=
          List.any_eq_true.mpr ⟨src, hsrc, hin⟩
        rw [if_pos hC]
        exact (javaArgsCheck_step r l bs _).1.1 _ _
          ((StepOk_ite _ r l _).1.1 _ _ (mem_flookup_mark r l st))
      · exact javaArgsCheck_hit (Or.inr ⟨arg, he, src, hsrc, hin⟩)

/-- A tainting VariableDeclarator adds its name in one rule step. -/
theorem javaRuleStep_taints {r : Rule} {st : VState} {nm : String}
    {init : Option String} (hty : r.type = "taint-ast") {src : String}
    (hsrc : src ∈ r.sources) (hin : strIn src (init.getD "") = true) :
    nm ∈ (javaRuleStep (.variableDeclarator nm init) st r).tainted := by
  unfold javaRuleStep javaTaintStep
  rw [if_pos hty]
  dsimp only
  have hC : (r.sources.any fun s => strIn s (init.getD "")) = true :=
    List.any_eq_true.mpr ⟨src, hsrc, hin⟩
  rw [if_pos hC]
  exact taintAdd_self _ nm

/-- A sink MethodInvocation with a hitting argument records its line in
one rule step. -/
theorem javaRuleStep_marks {r : Rule} {st : VState} {member : String}
    {q : Option String} {args : List String} {pos : Option Nat}
    (hty : r.type = "taint-ast") (hsink : member ∈ r.sinks)
    (hhit : JSinkHit r args st.tainted) :
    pos.getD 0 ∈
      flookup (javaRuleStep (.methodInvocation member q args pos) st r).findings
        r.id := by
  unfold javaRuleStep javaTaintStep
  rw [if_pos hty]
  dsimp only
  rw [if_pos hsink]
  exact javaArgsCheck_hit
    (JSinkHit_mono (javaAstMarks_step (.methodInvocation member q args pos) r st).2 hhit)

theorem javaRulesLoop_taints {r : Rule} {nm : String} {init : Option String}
    (hty : r.type = "taint-ast") {src : String} (hsrc : src ∈ r.sources)
    (hin : strIn src (init.getD "") = true) :
    ∀ {rules : List Rule} {st : VState}, r ∈ rules →
      nm ∈ (javaRulesLoop (.variableDeclarator nm init) rules st).tainted := by
  intro rules
  induction rules with
  | nil => intro st hmem; cases hmem
  | cons r' rs ih =>
    intro st hmem
    unfold javaRulesLoop
    rcases List.mem_cons.mp hmem with he | he
    · subst he
      exact (javaRulesLoop_step _ rs _).2 nm (javaRuleStep_taints hty hsrc hin)
    · exact ih he

theorem javaRulesLoop_marks {r : Rule} {member : String} {q : Option String}
    {args : List String} {pos : Option Nat}
    (hty : r.type = "taint-ast") (hsink : member ∈ r.sinks) :
    ∀ {rules : List Rule} {st : VState}, r ∈ rules →
      JSinkHit r args st.tainted →
      pos.getD 0 ∈
        flookup (javaRulesLoop (.methodInvocation member q args pos) rules st).findings
          r.id := by
  intro rules
  induction rules with
  | nil => intro st hmem; cases hmem
  | cons r' rs ih =>
    intro st hmem hhit
    unfold javaRulesLoop
    rcases List.mem_cons.mp hmem with he | he
    · subst he
      exact (javaRulesLoop_step _ rs _).1.1 _ _ (javaRuleStep_marks hty hsink hhit)
    · exact ih he
        (JSinkHit_mono (javaRuleStep_step (.methodInvocation member q args pos) st r').2 hhit)

/-! ### Last helpers before the claims -/

theorem runStmts_singleton {rules : List Rule} {s : Stmt} {st st' : VState}
    (h : runStmts rules [s] st = .ok st') : visitStmt rules s st = .ok st' := by
  unfold runStmts at h
  cases h1 : visitStmt rules s st with
  | error e => rw [h1] at h; cases h
  | ok st1 =>
    rw [h1] at h
    dsimp only at h
    unfold runStmts at h
    simp only [Except.ok.injEq] at h
    rw [← h]

theorem allNonEmpty_nil : allNonEmpty ([] : Findings) :=
  fun kv h => absurd h (List.not_mem_nil kv)

/-- Whatever happens after the Java regex loop (absent frontend, parse
failure, or a full walk), the regex findings survive into the output. -/
theorem javaRunner_regex_mono {ml : MatchFn} {jav : Bool}
    {parse : Except String (List JNode)} {rules : List Rule} {code : String}
    {fs : Findings} {err : Option String}
    (h : javaRunner ml jav parse rules code = .map fs err) :
    ∃ fs0, regexPhase ml code rules [] = .ok fs0 ∧ FStep fs0 fs := by
  unfold javaRunner at h
  cases h1 : regexPhase ml code rules [] with
  | error e => rw [h1] at h; cases h
  | ok fs0 =>
    rw [h1] at h
    dsimp only at h
    cases jav with
    | false =>
      rw [if_neg (by simp)] at h
      simp only [RunOutput.map.injEq] at h
      refine ⟨fs0, rfl, ?_⟩
      rw [← h.1]
      exact FStep_refl fs0
    | true =>
      rw [if_pos rfl] at h
      cases parse with
      | error msg =>
        simp only [RunOutput.map.injEq] at h
        refine ⟨fs0, rfl, ?_⟩
        rw [← h.1]
        exact FStep_refl fs0
      | ok nodes =>
        simp only [RunOutput.map.injEq] at h
        refine ⟨fs0, rfl, ?_⟩
        rw [← h.1]
        exact (javaWalk_step rules nodes ⟨fs0, []⟩).1

/-! ## The claims -/

/-- C3: Pattern Matcher line numbering — for every source text and every
regex/heuristic rule with a pattern, the evaluation scans the full text
with the finditer scan (all non-overlapping matches of the compiled
pattern, the `MatchFn` argument carrying the case-insensitive matching
semantics), and each match contributes, under the rule's id, the line
`1 + count of newline characters strictly before the match's start
offset`.  Stated for both runners' end-to-end outputs. -/
theorem pattern_matcher_line_numbers (ml : MatchFn) (code jcode : String)
    (body : List Stmt) (jav : Bool) (jparse : Except String (List JNode))
    (rules : List Rule) (r : Rule) (p : String)
    (fs jfs : Findings) (err jerr : Option String)
    (hmem : r ∈ rules) (hty : r.type = "regex" ∨ r.type = "heuristic")
    (hp : r.pattern = some p) :
    (pythonRunner ml (.ok body) rules code = .map fs err →
      ∀ i ∈ finditerStarts (ml p) code,
        (code.toList.take i).count '\n' + 1 ∈ flookup fs r.id) ∧
    (javaRunner ml jav jparse rules jcode = .map jfs jerr →
      ∀ i ∈ finditerStarts (ml p) jcode,
        (jcode.toList.take i).count '\n' + 1 ∈ flookup jfs r.id) := by
  constructor
  · intro h i hi
    obtain ⟨stv, h1, h2, h3⟩ := pythonRunner_map_inv h
    exact regexPhase_marks hty hp hmem h2 i hi
  · intro h i hi
    obtain ⟨fs0, h1, h2⟩ := javaRunner_regex_mono h
    exact h2.1 _ _ (regexPhase_marks hty hp hmem h1 i hi)

/-- C3 witness: rule `r1` with literal pattern `password` against
`"x=1\npassword = abc\n"`: the single match starts at offset 4, and
line 2 is reported. -/
theorem pattern_matcher_line_numbers_witness :
    (2 : Nat) ∈ flookup [("r1", [2])] "r1" :=
  (pattern_matcher_line_numbers litMatchLen "x=1\npassword = abc\n" ""
    [] false (.ok []) [⟨"r1", "regex", some "password", none, none, none, [], []⟩]
    ⟨"r1", "regex", some "password", none, none, none, [], []⟩ "password"
    [("r1", [2])] [] none none
    (List.mem_singleton.mpr rfl) (Or.inl rfl) rfl).1 rfl 4 (by decide)

/-- C9: Taint-set monotonicity — within one pass the taint set only grows:
visiting any statement sequence (Python runner) or node sequence (Java
runner) never removes a name from it. -/
theorem taint_set_monotone (rules jrules : List Rule) (body : List Stmt)
    (ns : List JNode) (st st' stj : VState) :
    (runStmts rules body st = .ok st' → ∀ x ∈ st.tainted, x ∈ st'.tainted) ∧
    (∀ y ∈ stj.tainted, y ∈ (javaWalk jrules ns stj).tainted) :=
  ⟨fun h x hx => (runStmts_step h).2 x hx,
   fun y hy => (javaWalk_step jrules ns stj).2 y hy⟩

/-- C9 witness: a pass over `q = request.args` that starts with `b`
tainted still has `b` tainted afterwards, and likewise for a Java walk
over a tainting declarator starting from `c`. -/
theorem taint_set_monotone_witness :
    "b" ∈ (VState.mk [] ["b", "q"]).tainted ∧
    "c" ∈ (javaWalk [⟨"t1", "taint-ast", none, none, none, none, ["request.getParameter"], ["execute"]⟩]
      [.variableDeclarator "q" (some "request.getParameter(x)")] ⟨[], ["c"]⟩).tainted := by
  constructor
  · exact (taint_set_monotone
      [⟨"t1", "taint-ast", none, none, none, none, ["request.args"], ["db.execute"]⟩]
      [] [.assign (.cons (.name "q") .nil) (.other "request.args") 1]
      [] ⟨[], ["b"]⟩ ⟨[], ["b", "q"]⟩ ⟨[], []⟩).1 (by rfl) "b" (by decide)
  · exact (taint_set_monotone [] [⟨"t1", "taint-ast", none, none, none, none, ["request.getParameter"], ["execute"]⟩]
      [] [.variableDeclarator "q" (some "request.getParameter(x)")]
      ⟨[], []⟩ ⟨[], []⟩ ⟨[], ["c"]⟩).2 "c" (by decide)

/-- C10: No empty finding lists — for both runners, whenever an invocation
returns a findings map, every key (all keys are rule ids; the reserved
`error` entry is the separate `errorKey` component) maps to a non-empty
list of lines, and a rule id occurs as a key exactly when it has at least
one recorded finding. -/
theorem no_empty_finding_lists (ml ml2 : MatchFn) (parse : PyParse)
    (jav : Bool) (jparse : Except String (List JNode))
    (rules jrules : List Rule) (code jcode : String)
    (fs jfs : Findings) (err jerr : Option String) :
    (pythonRunner ml parse rules code = .map fs err →
      allNonEmpty fs ∧ ∀ k, flookup fs k ≠ [] ↔ k ∈ fs.map Prod.fst) ∧
    (javaRunner ml2 jav jparse jrules jcode = .map jfs jerr →
      allNonEmpty jfs ∧ ∀ k, flookup jfs k ≠ [] ↔ k ∈ jfs.map Prod.fst) := by
  constructor
  · intro h
    have hne : allNonEmpty fs := by
      cases parse with
      | err msg =>
        unfold pythonRunner at h
        dsimp only at h
        simp only [RunOutput.map.injEq] at h
        rw [← h.1]
        exact allNonEmpty_nil
      | ok body =>
        obtain ⟨stv, h1, h2, h3⟩ := pythonRunner_map_inv h
        exact (regexPhase_fstep h2).2 ((runStmts_step h1).1.2 allNonEmpty_nil)
    exact ⟨hne, fun k => flookup_ne_nil_iff hne k⟩
  · intro h
    obtain ⟨fs0, h1, h2⟩ := javaRunner_regex_mono h
    have hne : allNonEmpty jfs := h2.2 ((regexPhase_fstep h1).2 allNonEmpty_nil)
    exact ⟨hne, fun k => flookup_ne_nil_iff hne k⟩

/-- C10 witness: a concrete run with one matching regex rule yields
`{"r1": [2]}`: the value list is non-empty and the key test agrees. -/
theorem no_empty_finding_lists_witness :
    allNonEmpty [("r1", [2])] ∧
    (flookup [("r1", [2])] "r1" ≠ [] ↔ "r1" ∈ ([("r1", [2])] : Findings).map Prod.fst) := by
  have h := (no_empty_finding_lists litMatchLen litMatchLen (.ok [])
    false (.ok []) [⟨"r1", "regex", some "password", none, none, none, [], []⟩] []
    "x=1\npassword = abc\n" "" [("r1", [2])] [] none none).1 (by rfl)
  exact ⟨h.1, h.2 "r1"⟩

/-- C1: Single-hop sink detection soundness — for a taint-ast rule, an
assignment `a = SOURCE_EXPR` whose rendered right-hand side contains one
of the rule's sources, followed in traversal order by a call to a function
resolving to one of the rule's sinks with the bare variable `a` among the
arguments, puts the sink call's line under the rule's id in the output
map.  First conjunct: the Python runner on an arbitrary module
`pre; a = rhs; mid; sink(…, a, …); post`.  Second conjunct: the Java
runner on an arbitrary node walk with a tainting VariableDeclarator
followed by a sink MethodInvocation carrying the tainted name as a
rendered argument. -/
theorem sink_detection_single_hop
    (ml : MatchFn) (code : String) (rules : List Rule) (r : Rule)
    (pre mid post : List Stmt) (a : String) (rhs f : Expr) (args : ExprList)
    (l1 l2 : Nat) (src fn : String) (fs : Findings) (err : Option String)
    (hmem : r ∈ rules) (hty : r.type = "taint-ast")
    (hsrc : src ∈ r.sources) (hin : strIn src (render rhs) = true)
    (ha : a ≠ "") (hf : get_name f = .ok (some fn)) (hsink : fn ∈ r.sinks)
    (harg : Expr.name a ∈ args.toList)
    (hrun : pythonRunner ml
      (.ok (pre ++ [.assign (.cons (.name a) .nil) rhs l1] ++ mid ++
        [.exprStmt (.call f args l2)] ++ post)) rules code = .map fs err)
    (ml2 : MatchFn) (jcode : String) (jrules : List Rule) (r2 : Rule)
    (jpre jmid jpost : List JNode) (nm : String) (init : Option String)
    (member : String) (q : Option String) (jargs : List String)
    (pos : Option Nat) (src2 : String) (jfs : Findings) (jerr : Option String)
    (hmem2 : r2 ∈ jrules) (hty2 : r2.type = "taint-ast")
    (hsrc2 : src2 ∈ r2.sources) (hin2 : strIn src2 (init.getD "") = true)
    (hsink2 : member ∈ r2.sinks) (harg2 : nm ∈ jargs)
    (hjrun : javaRunner ml2 true
      (.ok (jpre ++ [.variableDeclarator nm init] ++ jmid ++
        [.methodInvocation member q jargs pos] ++ jpost)) jrules jcode =
      .map jfs jerr) :
    l2 ∈ flookup fs r.id ∧ pos.getD 0 ∈ flookup jfs r2.id := by
  constructor
  · obtain ⟨stv, hrs, hrp, herr⟩ := pythonRunner_map_inv hrun
    obtain ⟨stA, hfront, hpost⟩ := runStmts_append hrs
    obtain ⟨stB, hfront2, hs2⟩ := runStmts_append hfront
    obtain ⟨stC, hfront3, hmid⟩ := runStmts_append hfront2
    obtain ⟨stD, hpre, hs1⟩ := runStmts_append hfront3
    have htaint : a ∈ stC.tainted :=
      assignStmt_taints hmem hty hsrc hin ha (List.mem_singleton.mpr rfl)
        (runStmts_singleton hs1)
    have hm : a ∈ stB.tainted := (runStmts_step hmid).2 a htaint
    have hmark : l2 ∈ flookup stA.findings r.id :=
      sinkStmt_marks hf hmem hty hsink (Or.inl ⟨a, harg, hm⟩)
        (runStmts_singleton hs2)
    exact (regexPhase_fstep hrp).1 _ _ ((runStmts_step hpost).1.1 _ _ hmark)
  · obtain ⟨fs0, hreg, hfs, herr2⟩ := javaRunner_map_inv hjrun
    rw [hfs]
    simp only [javaWalk_append]
    have ht : nm ∈ (javaWalk jrules [.variableDeclarator nm init]
        (javaWalk jrules jpre ⟨fs0, []⟩)).tainted :=
      javaRulesLoop_taints hty2 hsrc2 hin2 hmem2
    have ht2 : nm ∈ (javaWalk jrules jmid (javaWalk jrules
        [.variableDeclarator nm init] (javaWalk jrules jpre ⟨fs0, []⟩))).tainted :=
      (javaWalk_step jrules jmid _).2 nm ht
    have hmark : pos.getD 0 ∈ flookup (javaWalk jrules
        [.methodInvocation member q jargs pos] (javaWalk jrules jmid
          (javaWalk jrules [.variableDeclarator nm init]
            (javaWalk jrules jpre ⟨fs0, []⟩)))).findings r2.id :=
      javaRulesLoop_marks hty2 hsink2 hmem2 (Or.inl ⟨nm, harg2, ht2⟩)
    exact (javaWalk_step jrules jpost _).1.1 _ _ hmark

/-- C1 witness: the spec's example `q = request.args.get("id");
db.execute(q)` yields `{"t1": [2]}` for the Python runner, and the Java
analogue `String q = request.getParameter("id"); stmt.execute(q)` yields
`{"t1": [5]}`; both memberships follow by applying the theorem. -/
theorem sink_detection_single_hop_witness :
    (2 : Nat) ∈ flookup [("t1", [2])] "t1" ∧
    (5 : Nat) ∈ flookup [("t1", [5])] "t1" :=
  sink_detection_single_hop litMatchLen "q = request.args.get(z)\ndb.execute(q)"
    [⟨"t1", "taint-ast", none, none, none, none, ["request.args"], ["db.execute"]⟩]
    ⟨"t1", "taint-ast", none, none, none, none, ["request.args"], ["db.execute"]⟩
    [] [] [] "q"
    (.call (.attrib (.attrib (.name "request") "args") "get")
      (.cons (.constStr "id") .nil) 1)
    (.attrib (.name "db") "execute") (.cons (.name "q") .nil)
    1 2 "request.args" "db.execute" [("t1", [2])] none
    (List.mem_singleton.mpr rfl) rfl (List.mem_singleton.mpr rfl) (by decide)
    (by decide) rfl (List.mem_singleton.mpr rfl) (List.mem_singleton.mpr rfl)
    (by rfl)
    litMatchLen "" [⟨"t1", "taint-ast", none, none, none, none, ["request.getParameter"], ["execute"]⟩]
    ⟨"t1", "taint-ast", none, none, none, none, ["request.getParameter"], ["execute"]⟩
    [] [] [] "q" (some "request.getParameter(x)") "execute" (some "stmt")
    ["q"] (some 5) "request.getParameter" [("t1", [5])] none
    (List.mem_singleton.mpr rfl) rfl (List.mem_singleton.mpr rfl) (by decide)
    (List.mem_singleton.mpr rfl) (List.mem_singleton.mpr rfl) (by rfl)

/-- C7: Direct source-in-argument detection — a call whose resolved name
is one of a taint-ast rule's sinks and one of whose arguments' rendered
text contains one of the rule's sources is reported at the call's line,
with no taint hypothesis at all (the taint set may be empty).  Stated for
both runners. -/
theorem direct_source_in_argument
    (ml : MatchFn) (code : String) (rules : List Rule) (r : Rule)
    (pre post : List Stmt) (f arg : Expr) (args : ExprList) (l : Nat)
    (src fn : String) (fs : Findings) (err : Option String)
    (hmem : r ∈ rules) (hty : r.type = "taint-ast")
    (hf : get_name f = .ok (some fn)) (hsink : fn ∈ r.sinks)
    (hargmem : arg ∈ args.toList) (hsrc : src ∈ r.sources)
    (hin : strIn src (render arg) = true)
    (hrun : pythonRunner ml (.ok (pre ++ [.exprStmt (.call f args l)] ++ post))
      rules code = .map fs err)
    (ml2 : MatchFn) (jcode : String) (jrules : List Rule) (r2 : Rule)
    (jpre jpost : List JNode) (member : String) (q : Option String)
    (jargs : List String) (jarg : String) (pos : Option Nat) (src2 : String)
    (jfs : Findings) (jerr : Option String)
    (hmem2 : r2 ∈ jrules) (hty2 : r2.type = "taint-ast")
    (hsink2 : member ∈ r2.sinks) (hargmem2 : jarg ∈ jargs)
    (hsrc2 : src2 ∈ r2.sources) (hin2 : strIn src2 jarg = true)
    (hjrun : javaRunner ml2 true
      (.ok (jpre ++ [.methodInvocation member q jargs pos] ++ jpost))
      jrules jcode = .map jfs jerr) :
    l ∈ flookup fs r.id ∧ pos.getD 0 ∈ flookup jfs r2.id := by
  constructor
  · obtain ⟨stv, hrs, hrp, herr⟩ := pythonRunner_map_inv hrun
    obtain ⟨stA, hfront, hpost⟩ := runStmts_append hrs
    obtain ⟨stB, hpre, hcall⟩ := runStmts_append hfront
    have hmark : l ∈ flookup stA.findings r.id :=
      sinkStmt_marks hf hmem hty hsink (Or.inr ⟨arg, hargmem, src, hsrc, hin⟩)
        (runStmts_singleton hcall)
    exact (regexPhase_fstep hrp).1 _ _ ((runStmts_step hpost).1.1 _ _ hmark)
  · obtain ⟨fs0, hreg, hfs, herr2⟩ := javaRunner_map_inv hjrun
    rw [hfs]
    simp only [javaWalk_append]
    have hmark : pos.getD 0 ∈ flookup (javaWalk jrules
        [.methodInvocation member q jargs pos]
        (javaWalk jrules jpre ⟨fs0, []⟩)).findings r2.id :=
      javaRulesLoop_marks hty2 hsink2 hmem2
        (Or.inr ⟨jarg, hargmem2, src2, hsrc2, hin2⟩)
    exact (javaWalk_step jrules jpost _).1.1 _ _ hmark

/-- C7 witness: `db.execute(request.args.get("id"))` reports line 1 with
an empty taint set, and `stmt.execute(request.getParameter("id"))`
likewise reports its line for the Java runner. -/
theorem direct_source_in_argument_witness :
    (1 : Nat) ∈ flookup [("t1", [1])] "t1" ∧
    (7 : Nat) ∈ flookup [("t1", [7])] "t1" :=
  direct_source_in_argument litMatchLen "db.execute(request.args.get(z))"
    [⟨"t1", "taint-ast", none, none, none, none, ["request.args"], ["db.execute"]⟩]
    ⟨"t1", "taint-ast", none, none, none, none, ["request.args"], ["db.execute"]⟩
    [] [] (.attrib (.name "db") "execute")
    (.call (.attrib (.attrib (.name "request") "args") "get")
      (.cons (.constStr "id") .nil) 1)
    (.cons (.call (.attrib (.attrib (.name "request") "args") "get")
      (.cons (.constStr "id") .nil) 1) .nil)
    1 "request.args" "db.execute" [("t1", [1])] none
    (List.mem_singleton.mpr rfl) rfl rfl (List.mem_singleton.mpr rfl)
    (List.mem_singleton.mpr rfl) (List.mem_singleton.mpr rfl) (by decide)
    (by rfl)
    litMatchLen "" [⟨"t1", "taint-ast", none, none, none, none, ["request.getParameter"], ["execute"]⟩]
    ⟨"t1", "taint-ast", none, none, none, none, ["request.getParameter"], ["execute"]⟩
    [] [] "execute" (some "stmt") ["request.getParameter(y)"]
    "request.getParameter(y)" (some 7) "request.getParameter"
    [("t1", [7])] none
    (List.mem_singleton.mpr rfl) rfl (List.mem_singleton.mpr rfl)
    (List.mem_singleton.mpr rfl) (List.mem_singleton.mpr rfl) (by decide)
    (by rfl)

/-- With a taint-ast rule the ast/context-ast branch of visit_Call marks
nothing. -/
theorem astContextMarks_taint {r : Rule} (hty : r.type = "taint-ast")
    (fn : String) (args : ExprList) (ln : Nat) (st : VState) :
    astContextMarks r fn args ln st = st := by
  unfold astContextMarks
  rw [if_neg]
  rw [hty]
  simp

/-- With a taint-ast rule the regex/heuristic loop skips the rule. -/
theorem regexPhase_taint_skip {ml : MatchFn} {code : String} {r : Rule}
    (hty : r.type = "taint-ast") (fs : Findings) :
    regexPhase ml code [r] fs = .ok fs := by
  unfold regexPhase
  rw [if_neg]
  · unfold regexPhase
    rfl
  · rw [hty]
    simp

/-- C8: Forward-reference non-detection — on `sink(a); a = SOURCE_EXPR`
the sink call is visited first, the variable is not yet tainted, and when
the argument's rendered text (the bare name `a`) contains none of the
rule's sources, the run finishes with an empty findings map: no finding is
emitted for the sink call under the rule's id. -/
theorem forward_reference_non_detection
    (ml : MatchFn) (code : String) (r : Rule) (a fn srcText : String)
    (f : Expr) (l1 l2 : Nat)
    (hty : r.type = "taint-ast")
    (hf : get_name f = .ok (some fn)) (hsink : fn ∈ r.sinks)
    (hnot : ∀ src ∈ r.sources, strIn src a = false) :
    pythonRunner ml
      (.ok [.exprStmt (.call f (.cons (.name a) .nil) l1),
            .assign (.cons (.name a) .nil) (.other srcText) l2]) [r] code =
      .map [] none := by
  have hany : (r.sources.any fun s => strIn s (render (.name a))) = false := by
    rw [List.any_eq_false]
    intro x hx
    have h1 := hnot x hx
    unfold render at h1 ⊢
    simp [h1]
  have hac : argCheck r l1 ⟨[], []⟩ (.name a) = .ok ⟨[], []⟩ := by
    unfold argCheck
    dsimp only [get_name]
    rw [if_neg (show ¬((r.sources.any fun s => strIn s (render (.name a))) = true) by
      rw [hany];
      simp)]
    rw [if_neg (show ¬optMem (some a) ([] : List String) from List.not_mem_nil a)]
  have hcall : visitStmt [r] (.exprStmt (.call f (.cons (.name a) .nil) l1))
      ⟨[], []⟩ = .ok ⟨[], []⟩ := by
    unfold visitStmt visitExpr
    have hbody : visit_Call_body [r] f (.cons (.name a) .nil) l1 ⟨[], []⟩ =
        .ok ⟨[], []⟩ := by
      unfold visit_Call_body
      rw [hf]
      dsimp only [Option.getD]
      unfold callRulesLoop
      have hstep : callRuleStep fn (.cons (.name a) .nil) l1 ⟨[], []⟩ r =
          .ok ⟨[], []⟩ := by
        unfold callRuleStep
        rw [astContextMarks_taint hty]
        rw [if_pos ⟨hty, hsink⟩]
        unfold argsCheck
        rw [hac]
        unfold argsCheck
        rfl
      rw [hstep]
      unfold callRulesLoop
      rfl
    rw [hbody]
    dsimp only
    rw [visitExpr_resolved_id _ hf]
    rfl
  have hassign : visitStmt [r]
      (.assign (.cons (.name a) .nil) (.other srcText) l2) ⟨[], []⟩ =
      .ok ⟨[], if (r.sources.any fun s => strIn s (render (Expr.other srcText))) = true
               then addAll [] (List.filter (fun s => s ≠ "") (List.filterMap id [some a]))
               else []⟩ := by
    unfold visitStmt
    dsimp only
    unfold visit_Assign_body
    dsimp only [getNames, get_name]
    unfold assignRulesLoop assignRuleStep
    rw [if_pos hty]
    rfl
  unfold pythonRunner
  dsimp only
  unfold runStmts
  rw [hcall]
  dsimp only
  unfold runStmts
  rw [hassign]
  dsimp only
  unfold runStmts
  dsimp only
  rw [regexPhase_taint_skip hty]

/-- C8 witness: `db.execute(q); q = request.args.get(z)` with the taint
rule yields an empty findings map — the forward reference is not
detected. -/
theorem forward_reference_non_detection_witness :
    pythonRunner litMatchLen
      (.ok [.exprStmt (.call (.attrib (.name "db") "execute")
              (.cons (.name "q") .nil) 1),
            .assign (.cons (.name "q") .nil) (.other "request.args.get(z)") 2])
      [⟨"t1", "taint-ast", none, none, none, none, ["request.args"], ["db.execute"]⟩]
      "db.execute(q)\nq = request.args.get(z)" = .map [] none :=
  forward_reference_non_detection litMatchLen
    "db.execute(q)\nq = request.args.get(z)"
    ⟨"t1", "taint-ast", none, none, none, none, ["request.args"], ["db.execute"]⟩
    "q" "db.execute" "request.args.get(z)" (.attrib (.name "db") "execute") 1 2
    rfl rfl (List.mem_singleton.mpr rfl) (by decide)

/-- C4 (code bug): the matching phase is claimed never to abort once
parsing succeeded, but `get_name` on an attribute whose base is itself a
call computes `None + "."` and raises TypeError, so the whole pass of the
Python runner on `f().bar(x)` — even with an empty rule list — crashes
with no output map at all. -/
theorem pass_aborts_on_unresolvable_call :
    get_name (.attrib (.call (.name "f") .nil 1) "bar") =
      .error "TypeError: unsupported operand type(s) for +: NoneType and str" ∧
    pythonRunner litMatchLen
      (.ok [.exprStmt (.call (.attrib (.call (.name "f") .nil 1) "bar")
        (.cons (.name "x") .nil) 1)]) [] "f().bar(x)" =
      .crash "TypeError: unsupported operand type(s) for +: NoneType and str" :=
  ⟨rfl, rfl⟩

/-- C5 (code bug): a regex rule without a `pattern` key raises an uncaught
KeyError in both runners' regex loops, crashing the pass with no output —
the well-formed rule `r1`, which alone produces `{"r1": [1]}` (third
conjunct), loses its findings too, instead of the malformed rule being
skipped. -/
theorem malformed_rule_aborts_pass :
    pythonRunner litMatchLen (.ok [])
      [⟨"r1", "regex", some "password", none, none, none, [], []⟩,
       ⟨"r2", "regex", none, none, none, none, [], []⟩]
      "password = 1" = .crash "KeyError: pattern" ∧
    javaRunner litMatchLen true (.ok [])
      [⟨"r1", "regex", some "password", none, none, none, [], []⟩,
       ⟨"r2", "regex", none, none, none, none, [], []⟩]
      "password = 1" = .crash "KeyError: pattern" ∧
    pythonRunner litMatchLen (.ok [])
      [⟨"r1", "regex", some "password", none, none, none, [], []⟩]
      "password = 1" = .map [("r1", [1])] none :=
  ⟨rfl, rfl, rfl⟩

/-- C2 counterexample: on a Python parse failure the output map holds only
the error entry — the raw text `password = 1` matches the regex rule `r1`
at offset 0 (second conjunct), yet the returned map has no findings for
`r1` (third conjunct), refuting "every match of its pattern in the raw
text is still present". -/
theorem parse_failure_isolation_cex :
    pythonRunner litMatchLen (.err "invalid syntax")
      [⟨"r1", "regex", some "password", none, none, none, [], []⟩]
      "password = 1" = .map [] (some "Python parse error: invalid syntax") ∧
    finditerStarts (litMatchLen "password") "password = 1" = [0] ∧
    flookup [] "r1" = [] :=
  ⟨rfl, rfl, rfl⟩

/-- C2 amended: on a parse failure the returned map carries the error
entry in both runners, and the regex/heuristic findings are still present
for the Java runner (whose regex loop runs before parsing); the Python
runner instead returns only the error entry — its regex findings are
dropped, because it exits at the parse failure before the regex loop. -/
theorem parse_failure_isolation_amended (ml : MatchFn) (rules : List Rule)
    (code msg : String) (fs : Findings)
    (hreg : regexPhase ml code rules [] = .ok fs) :
    javaRunner ml true (.error msg) rules code =
      .map fs (some ("Java parse error: " ++ msg)) ∧
    pythonRunner ml (.err msg) rules code =
      .map [] (some ("Python parse error: " ++ msg)) := by
  constructor
  · unfold javaRunner
    rw [hreg]
    rfl
  · rfl

/-- C2 amended witness: a malformed Java source with one matching regex
rule keeps `{"r1": [1]}` plus the error entry; the Python side returns
only the error entry. -/
theorem parse_failure_isolation_amended_witness :
    javaRunner litMatchLen true (.error "Expected something")
      [⟨"r1", "regex", some "password", none, none, none, [], []⟩]
      "password = 1" =
      .map [("r1", [1])] (some ("Java parse error: " ++ "Expected something")) ∧
    pythonRunner litMatchLen (.err "Expected something")
      [⟨"r1", "regex", some "password", none, none, none, [], []⟩]
      "password = 1" =
      .map [] (some ("Python parse error: " ++ "Expected something")) :=
  parse_failure_isolation_amended litMatchLen
    [⟨"r1", "regex", some "password", none, none, none, [], []⟩]
    "password = 1" "Expected something" [("r1", [1])] rfl

/-- C6 counterexample: with javalang absent the Java runner returns the
regex findings with NO error entry (`errorKey = none`), refuting "the
returned findings map carries an error key noting that structural
analysis was unavailable". -/
theorem frontend_unavailable_cex :
    javaRunner litMatchLen false (.ok [])
      [⟨"r1", "regex", some "password", none, none, none, [], []⟩]
      "password = 1" = .map [("r1", [1])] none :=
  rfl

/-- C6 amended: with the javalang frontend unavailable, the evaluation
still returns all Pattern Matcher (regex/heuristic) findings, but the
structural/taint categories are silently skipped: the returned map
carries no error entry. -/
theorem frontend_unavailable_amended (ml : MatchFn)
    (parse : Except String (List JNode)) (rules : List Rule) (code : String)
    (fs : Findings) (hreg : regexPhase ml code rules [] = .ok fs) :
    javaRunner ml false parse rules code = .map fs none := by
  unfold javaRunner
  rw [hreg]
  rfl

/-- C6 amended witness: degraded mode on a concrete matching rule returns
`{"r1": [1]}` and no error entry. -/
theorem frontend_unavailable_amended_witness :
    javaRunner litMatchLen false (.error "ImportError: javalang")
      [⟨"r1", "regex", some "password", none, none, none, [], []⟩]
      "password = 1" = .map [("r1", [1])] none :=
  frontend_unavailable_amended litMatchLen (.error "ImportError: javalang")
    [⟨"r1", "regex", some "password", none, none, none, [], []⟩]
    "password = 1" [("r1", [1])] rfl

end Analyzer
